import Mathlib

/-!
Verification of the data-cleaning and statistics pipeline of `app.py`
(Taiwan top-10 weighted-stock dashboard).

Shallow embedding choices:
* a price is a rational number; a pandas `NaN` cell is `none : Option ℚ`;
* a pandas `DataFrame` of prices is `DF`: its labelled columns in column
  order; the date index carries no information used by the pipeline beyond
  row position, so rows are identified by 0-based position;
* pandas row count (`len(df)`) is the length of the first column (`DF.nRows`);
  real frames are rectangular, which theorems assume via `DF.Rect`;
* `df.empty` is true iff the frame has no columns or no rows;
* fallible pandas operations are modelled by `Option`, and the script's
  `try/except: pass` around the corruption block by returning the frame
  accumulated so far when a statement fails.
-/

/-- A pandas column: one cell per date, `none` marking a missing value. -/
abbrev Col := List (Option ℚ)

/-- A date × security price matrix: labelled columns in column order. -/
structure DF where
  cols : List (String × Col)
  deriving DecidableEq

/-- Number of rows (`len(df)` in pandas): length of the first column,
`0` for a column-less frame.  Rectangular frames make this choice
canonical (`DF.Rect`). -/
def DF.nRows (df : DF) : Nat :=
  match df.cols with
  | [] => 0
  | c :: _ => c.2.length

/-- `df.empty` in pandas: true iff either axis has length zero. -/
def DF.isEmpty (df : DF) : Bool :=
  df.cols.isEmpty || df.nRows == 0

/-- Rectangularity: every column has the frame's row count. -/
def DF.Rect (df : DF) : Prop :=
  ∀ c ∈ df.cols, c.2.length = df.nRows

/-- Cell at row position `i` of the column at position `k`
(`df.iloc[i, k]`): outer `none` = out of bounds, inner `none` = missing. -/
def cellPos (df : DF) (i k : Nat) : Option (Option ℚ) :=
  df.cols[k]?.bind fun c => c.2[i]?

/-- `df.columns.get_loc(name)`: position of the first column labelled
`name`, `none` when the lookup raises `KeyError`. -/
def getLoc (cols : List (String × Col)) (name : String) : Option Nat :=
  match cols with
  | [] => none
  | c :: cs => if c.1 = name then some 0 else (getLoc cs name).map (· + 1)

/-- Replace the data of the column at position `j` by `f` of it; out of
range leaves the frame unchanged. -/
def updateCol (cols : List (String × Col)) (j : Nat) (f : Col → Col) :
    List (String × Col) :=
  match cols, j with
  | [], _ => []
  | c :: cs, 0 => (c.1, f c.2) :: cs
  | c :: cs, j + 1 => c :: updateCol cs j f

/-- `col.iloc[lo:hi] = np.nan`: overwrite the cells at row positions
`lo ≤ i < hi` with missing.  Python slices never raise, whatever the
length. -/
def blankRange (lo hi : Nat) (c : Col) : Col :=
  match c with
  | [] => []
  | x :: xs => (if lo = 0 ∧ 0 < hi then none else x) :: blankRange (lo - 1) (hi - 1) xs

/-- The corruption step, `app.py` lines 78–85.  The script copies the
frame, then, guarded by `if not df_dirty.empty`, runs three statements
inside `try: ... except: pass`:

    df_dirty.iloc[0:5, df_dirty.columns.get_loc("台積電")] = np.nan
    df_dirty.iloc[10:13, df_dirty.columns.get_loc("鴻海")] = np.nan
    df_dirty.iloc[20, df_dirty.columns.get_loc("聯發科")] = np.nan

Columns are selected by label via `get_loc`; only the row indexing is
positional.  A failing `get_loc` raises `KeyError` and the scalar row
access `iloc[20, _]` raises `IndexError` when the frame has at most 20
rows; the bare `except` then keeps whatever the earlier statements
already wrote.  Row slices (`0:5`, `10:13`) never raise. -/
def corrupt (df : DF) : DF :=
  if df.isEmpty then df
  else
    match getLoc df.cols "台積電" with
    | none => df
    | some j1 =>
      let d1 : DF := ⟨updateCol df.cols j1 (blankRange 0 5)⟩
      match getLoc d1.cols "鴻海" with
      | none => d1
      | some j2 =>
        let d2 : DF := ⟨updateCol d1.cols j2 (blankRange 10 13)⟩
        match getLoc d2.cols "聯發科" with
        | none => d2
        | some j3 =>
          if 20 < d2.nRows then ⟨updateCol d2.cols j3 (blankRange 20 21)⟩ else d2

/-- Forward fill with an accumulator holding the most recent non-missing
value seen so far (pandas `ffill` on one column). -/
def ffillAux (acc : Option ℚ) : Col → Col
  | [] => []
  | none :: xs => acc :: ffillAux acc xs
  | some v :: xs => some v :: ffillAux (some v) xs

/-- `Series.ffill()`. -/
def ffill (c : Col) : Col := ffillAux none c

/-- `Series.bfill()`: forward fill of the reversed column, reversed back. -/
def bfill (c : Col) : Col := (ffillAux none c.reverse).reverse

/-- The repair of one column, `app.py` line 90: `ffill` then `bfill`. -/
def repairCol (c : Col) : Col := bfill (ffill c)

/-- `df_dirty.ffill().bfill()` (line 90): repair every column. -/
def repairDF (df : DF) : DF :=
  ⟨df.cols.map fun c => (c.1, repairCol c.2)⟩

/-- The value `ffill` leaves at position `i`: the last non-missing cell at
a position `≤ i`. -/
def lastSomeUpTo (c : Col) (i : Nat) : Option ℚ :=
  ((c.take (i + 1)).filterMap id).getLast?

/-- The value `bfill` leaves at position `i`: the first non-missing cell
at a position `≥ i`. -/
def firstSomeFrom (c : Col) (i : Nat) : Option ℚ :=
  ((c.drop i).filterMap id).head?

/-- First alternative if present, otherwise the fallback. -/
def orDefault (x y : Option ℚ) : Option ℚ :=
  match x with
  | some v => some v
  | none => y

/-- The non-missing entries of a column, in order (what pandas `skipna`
reductions see). -/
def definedVals (c : Col) : List ℚ := c.filterMap id

/-- `Series.mean()`: arithmetic mean of the non-missing entries, `NaN`
when there are none. -/
def colMean (c : Col) : Option ℚ :=
  if (definedVals c).length = 0 then none
  else some ((definedVals c).sum / ((definedVals c).length : ℚ))

/-- `Series.std()` squared, i.e. `Series.var()`: the observed-sample
variance of the non-missing entries (`ddof = 1`, pandas default), `NaN`
for fewer than two of them. -/
def colVar (c : Col) : Option ℚ :=
  if (definedVals c).length < 2 then none
  else
    some (((definedVals c).map fun x =>
        (x - (definedVals c).sum / ((definedVals c).length : ℚ)) ^ 2).sum
      / (((definedVals c).length : ℚ) - 1))

/-- Annualized mean return of one column of daily returns:
`returns.mean() * 252` (line 127). -/
def annRet (c : Col) : Option ℚ := (colMean c).map (· * 252)

/-- One cell of `pct_change`: fractional change from the previous cell,
`NaN` when either is missing. -/
def pctCell (a b : Option ℚ) : Option ℚ :=
  match a, b with
  | some p, some q => some ((q - p) / p)
  | _, _ => none

/-- `Series.pct_change()` (line 125): same length as the input, first
entry `NaN`, entry `t ≥ 1` the change from entry `t-1`. -/
def pctChange (c : Col) : Col :=
  match c with
  | [] => []
  | _ :: _ => none :: List.zipWith pctCell c c.tail

/-- `df_final.pct_change()` columnwise. -/
def pctChangeDF (df : DF) : DF :=
  ⟨df.cols.map fun c => (c.1, pctChange c.2)⟩

/-- `Series.rolling(w).mean()` with the default `min_periods = w`: `NaN`
for the first `w - 1` positions and whenever the trailing window of `w`
cells contains a missing value, otherwise the window's arithmetic mean. -/
def rollingMean (w : Nat) (c : Col) : Col :=
  (List.range c.length).map fun i =>
    if i + 1 < w then none
    else
      let ws := (c.drop (i + 1 - w)).take w
      if ws.all (fun x => x.isSome) then some ((ws.filterMap id).sum / (w : ℚ)) else none

/-- `df_final[sec].rolling(20).mean()` (line 167). -/
def ma20 (c : Col) : Col := rollingMean 20 c

/-- One column's total return percentage,
`(df_final.iloc[-1] / df_final.iloc[0] - 1) * 100` (line 222): `NaN` when
the first or last cell is missing (an empty column is out of range in the
script and handled at the run level). -/
def pctTotal (c : Col) : Option ℚ :=
  match c.head?, c.getLast? with
  | some (some f), some (some l) => some ((l / f - 1) * 100)
  | _, _ => none

/-- The unsorted total-return assignment, one pct per security in column
order. -/
def totalReturnDF (df : DF) : List (String × Option ℚ) :=
  df.cols.map fun c => (c.1, pctTotal c.2)

/-- Boolean ascending comparison on total-return values, used inside the
stable argsort of `sort_values`.  Missing values are separated off before
the argsort, so only the `some`/`some` case is exercised there; the other
cases are inert defaults. -/
def rankLeB (a b : String × Option ℚ) : Bool :=
  match a.2, b.2 with
  | some x, some y => decide (x ≤ y)
  | some _, none => true
  | none, some _ => false
  | none, none => true

/-- The comparison `rankLeB` as a relation. -/
def rankLe (a b : String × Option ℚ) : Prop := rankLeB a b = true

instance : DecidableRel rankLe := fun a b => inferInstanceAs (Decidable (_ = true))

/-- Descending-rank comparison: `a` ranks at least as high as `b` in the
descending output — equal or larger pct, with `NaN` ranked lowest. -/
def rankGeB (a b : String × Option ℚ) : Bool :=
  match a.2, b.2 with
  | some x, some y => decide (y ≤ x)
  | some _, none => true
  | none, some _ => false
  | none, none => true

/-- The comparison `rankGeB` as a relation. -/
def rankGe (a b : String × Option ℚ) : Prop := rankGeB a b = true

/-- `total_return.sort_values(ascending=False)` (line 223), following the
pandas implementation (`nargsort`): the missing entries are split off
first; for a descending sort the remaining values and their indices are
reversed, a stable ascending argsort is applied, and the resulting
indexer is reversed again — the two reversals cancel on equal values, so
ties keep their original column order; the missing entries are appended
at the end (`na_position='last'`).  The stable ascending sort is modelled
by `List.insertionSort` (numpy's sort kinds are stable on an array of
this size, and since pandas GH 35922 `sort_values` is stable by
construction). -/
def totalReturnRank (df : DF) : List (String × Option ℚ) :=
  (List.insertionSort rankLe
      (((totalReturnDF df).filter (fun q => q.2.isSome)).reverse)).reverse
    ++ (totalReturnDF df).filter (fun q => !q.2.isSome)

/-- Per-security summary (lines 126–129): annualized mean return
`mean * 252` and, in place of the annualized volatility
`std * sqrt(252)`, its exact square `var * 252` (the irrational square
root is reasoned about at the theorem level). -/
def summaryDF (rets : DF) : List (String × Option ℚ × Option ℚ) :=
  rets.cols.map fun c => (c.1, annRet c.2, (colVar c.2).map (· * 252))

/-- Outcome of one Streamlit script run (module level of `app.py`). -/
inductive RunOutcome where
  | acquisitionFailure : RunOutcome
  | unhandledIndexError : DF → List (String × Option ℚ × Option ℚ) → RunOutcome
  | rendered : DF → List (String × Option ℚ × Option ℚ) →
      List (String × Option ℚ) → RunOutcome
  deriving DecidableEq

/-- Whether the run ended on the `st.error` + `st.stop` path of the
module-level `try/except` (lines 95–99). -/
def RunOutcome.isAcqFailure : RunOutcome → Bool
  | .acquisitionFailure => true
  | _ => false

/-- `load_and_process_data` (lines 62–93) on an acquired matrix:
original copy, corrupted copy, repaired matrix.  Given a matrix (rather
than a raised exception) the function is total: the corruption block is
guarded and wrapped in `try/except`, and `ffill`/`bfill` never raise. -/
def loadAndProcess (data : DF) : DF × DF × DF :=
  (data, corrupt data, repairDF (corrupt data))

/-- One full script run.  `fetch = none` models the acquisition (or the
`['Adj Close']` projection) raising: the module-level handler reports the
failure and `st.stop()`s.  Otherwise the load returns normally, the
returns and summary (lines 125–129) are computed unconditionally, and the
chart/ranking stage then dereferences row positions `0` and `-1`
(lines 152 and 222), which raises an uncaught `IndexError` when the
repaired frame has no rows. -/
def moduleRun (fetch : Option DF) : RunOutcome :=
  match fetch with
  | none => .acquisitionFailure
  | some data =>
    let clean := (loadAndProcess data).2.2
    let rets := pctChangeDF clean
    let summ := summaryDF rets
    if clean.nRows = 0 then .unhandledIndexError rets summ
    else .rendered rets summ (totalReturnRank clean)

/-- A store of frames: Python objects reachable from the script's frame
variables, addressed by allocation order. -/
structure Heap where
  store : List DF

/-- Dereference an address. -/
def heapRead (h : Heap) (a : Nat) : Option DF := h.store[a]?

/-- Mutate the frame at an address in place. -/
def heapWrite (h : Heap) (a : Nat) (d : DF) : Heap := ⟨h.store.set a d⟩

/-- `DataFrame.copy()` / fresh object: allocate a new address holding the
given value. -/
def heapAlloc (h : Heap) (d : DF) : Heap × Nat := (⟨h.store ++ [d]⟩, h.store.length)

/-- Lines 74–85 with reference semantics made explicit.  `data` lives at
address 0; `df_original = data.copy()` allocates a fresh frame at a new
address, `df_dirty = data.copy()` another; the guarded `iloc` assignments
then mutate the frame at `df_dirty`'s address in place.  Had the script
aliased (`df_dirty = data`) instead of copying, no address would be
allocated and the write would hit address 0.  Returns the final heap and
the addresses of `data`, `df_original`, `df_dirty`. -/
def corruptStage (data : DF) : Heap × Nat × Nat × Nat :=
  let h0 : Heap := ⟨[data]⟩
  let p1 := heapAlloc h0 ((heapRead h0 0).getD ⟨[]⟩)
  let p2 := heapAlloc p1.1 ((heapRead p1.1 0).getD ⟨[]⟩)
  let h3 := heapWrite p2.1 p2.2 (corrupt ((heapRead p2.1 p2.2).getD ⟨[]⟩))
  (h3, 0, p1.2, p2.2)

lemma ffillAux_length (acc : Option ℚ) (xs : Col) : (ffillAux acc xs).length = xs.length := by
  induction xs generalizing acc with
  | nil => rfl
  | cons x l ih => cases x <;> simp [ffillAux, ih]

lemma ffill_length (xs : Col) : (ffill xs).length = xs.length := ffillAux_length none xs

lemma bfill_length (xs : Col) : (bfill xs).length = xs.length := by
  simp [bfill, ffillAux_length]

lemma repairCol_length (xs : Col) : (repairCol xs).length = xs.length := by
  simp [repairCol, bfill_length, ffill_length]

lemma orDefault_none (x : Option ℚ) : orDefault x none = x := by
  cases x <;> rfl

lemma lastSomeUpTo_cons_none (xs : Col) (i : Nat) :
    lastSomeUpTo (none :: xs) (i + 1) = lastSomeUpTo xs i := by
  simp [lastSomeUpTo, List.filterMap_cons]

lemma ffillAux_getElem? (xs : Col) (acc : Option ℚ) (i : Nat) (h : i < xs.length) :
    (ffillAux acc xs)[i]? = some (orDefault (lastSomeUpTo xs i) acc) := by
  induction xs generalizing acc i with
  | nil => simp at h
  | cons x l ih =>
    cases x with
    | none =>
      cases i with
      | zero => simp [ffillAux, lastSomeUpTo, List.filterMap_cons, orDefault]
      | succ i =>
        have hi : i < l.length := by simpa using h
        rw [lastSomeUpTo_cons_none]
        simpa [ffillAux] using ih acc i hi
    | some v =>
      cases i with
      | zero => simp [ffillAux, lastSomeUpTo, List.filterMap_cons, orDefault]
      | succ i =>
        have hi : i < l.length := by simpa using h
        have lhs : (ffillAux acc (some v :: l))[i + 1]? = (ffillAux (some v) l)[i]? := by
          simp [ffillAux]
        rw [lhs, ih (some v) i hi]
        have hcons : lastSomeUpTo (some v :: l) (i + 1)
            = some (((l.take (i + 1)).filterMap id).getLast?.getD v) := by
          simp [lastSomeUpTo, List.filterMap_cons, List.getLast?_cons]
        rw [hcons]
        cases hL : ((l.take (i + 1)).filterMap id).getLast? with
        | none => simp [lastSomeUpTo, hL, orDefault]
        | some w => simp [lastSomeUpTo, hL, orDefault]

lemma ffill_getElem? (xs : Col) (i : Nat) (h : i < xs.length) :
    (ffill xs)[i]? = some (lastSomeUpTo xs i) := by
  rw [ffill, ffillAux_getElem? xs none i h, orDefault_none]

lemma bfill_getElem? (xs : Col) (i : Nat) (h : i < xs.length) :
    (bfill xs)[i]? = some (firstSomeFrom xs i) := by
  have hlen : (ffillAux none xs.reverse).length = xs.length := by simp [ffillAux_length]
  rw [bfill, List.getElem?_reverse (hlen ▸ h), hlen]
  rw [ffillAux_getElem? _ none _ (by simp; omega), orDefault_none]
  congr 1
  rw [lastSomeUpTo, firstSomeFrom]
  rw [show xs.length - 1 - i + 1 = xs.length - i by omega]
  rw [List.take_reverse]
  rw [show xs.length - (xs.length - i) = i by omega]
  rw [List.filterMap_reverse, List.getLast?_reverse]

lemma firstSomeFrom_of_getElem (xs : Col) (i : Nat) (v : ℚ)
    (h : xs[i]? = some (some v)) : firstSomeFrom xs i = some v := by
  have hi : i < xs.length := by
    by_contra hge
    rw [List.getElem?_eq_none (by omega)] at h
    exact Option.noConfusion h
  have hdrop : xs.drop i = some v :: xs.drop (i + 1) := by
    rw [List.drop_eq_getElem_cons hi]
    rw [List.getElem?_eq_getElem hi] at h
    rw [Option.some.injEq] at h
    rw [h]
  rw [firstSomeFrom, hdrop, List.filterMap_cons]
  rfl

lemma lastSomeUpTo_of_getElem (xs : Col) (i : Nat) (v : ℚ)
    (h : xs[i]? = some (some v)) : lastSomeUpTo xs i = some v := by
  rw [lastSomeUpTo, List.take_succ, h]
  rw [List.filterMap_append]
  simp [List.getLast?_concat]

lemma lastSomeUpTo_eq_none (xs : Col) (i : Nat) :
    lastSomeUpTo xs i = none ↔ ∀ x ∈ xs.take (i + 1), x = none := by
  rw [lastSomeUpTo, List.getLast?_eq_none_iff, List.filterMap_eq_nil_iff]
  simp [Option.isNone_iff_eq_none]

lemma firstSomeFrom_eq_none (xs : Col) (i : Nat) :
    firstSomeFrom xs i = none ↔ ∀ x ∈ xs.drop i, x = none := by
  rw [firstSomeFrom, List.head?_eq_none_iff, List.filterMap_eq_nil_iff]
  simp [Option.isNone_iff_eq_none]

lemma ffillAux_drop (i : Nat) (xs : Col) (hnone : ∀ x ∈ xs.take i, x = none) :
    (ffillAux none xs).drop i = ffillAux none (xs.drop i) := by
  induction i generalizing xs with
  | zero => simp
  | succ i ih =>
    cases xs with
    | nil => simp [ffillAux]
    | cons x l =>
      have hx : x = none := hnone x (by simp)
      subst hx
      have hunf : ffillAux none (none :: l) = none :: ffillAux none l := rfl
      rw [hunf]
      have hl : ∀ x ∈ l.take i, x = none := by
        intro y hy
        refine hnone y ?_
        rw [List.take_succ_cons]
        exact List.mem_cons_of_mem _ hy
      simpa using ih l hl

lemma firstSomeFrom_ffillAux_zero (xs : Col) :
    firstSomeFrom (ffillAux none xs) 0 = firstSomeFrom xs 0 := by
  induction xs with
  | nil => rfl
  | cons x l ih =>
    cases x with
    | none =>
      have hunf : ffillAux none (none :: l) = none :: ffillAux none l := rfl
      rw [hunf]
      simp only [firstSomeFrom, List.drop_zero, List.filterMap_cons] at ih ⊢
      exact ih
    | some v => rfl

lemma firstSomeFrom_drop (xs : Col) (i : Nat) :
    firstSomeFrom xs i = firstSomeFrom (xs.drop i) 0 := by
  simp [firstSomeFrom]

lemma repairCol_getElem? (xs : Col) (i : Nat) (h : i < xs.length) :
    (repairCol xs)[i]? = some (orDefault (lastSomeUpTo xs i) (firstSomeFrom xs i)) := by
  have hf : i < (ffill xs).length := by rw [ffill_length]; exact h
  rw [repairCol, bfill_getElem? _ _ hf]
  congr 1
  cases hl : lastSomeUpTo xs i with
  | some v =>
    have hget : (ffill xs)[i]? = some (some v) := by
      rw [ffill_getElem? xs i h, hl]
    rw [firstSomeFrom_of_getElem _ _ _ hget]
    rfl
  | none =>
    have htake : ∀ x ∈ xs.take i, x = none := by
      intro x hx
      have hsub : xs.take i ⊆ xs.take (i + 1) := by
        have heq : xs.take i = (xs.take (i + 1)).take i := by
          rw [List.take_take]
          congr 1
          omega
        rw [heq]
        exact List.take_subset _ _
      exact (lastSomeUpTo_eq_none xs i).mp hl x (hsub hx)
    rw [firstSomeFrom_drop _ i, ffill, ffillAux_drop i xs htake,
      firstSomeFrom_ffillAux_zero, ← firstSomeFrom_drop]
    rfl

lemma lastSomeUpTo_none_of_all_none (xs : Col) (i : Nat)
    (h : ∀ x ∈ xs, x = none) : lastSomeUpTo xs i = none := by
  rw [lastSomeUpTo_eq_none]
  intro x hx
  exact h x (List.take_subset _ _ hx)

lemma firstSomeFrom_none_of_all_none (xs : Col) (i : Nat)
    (h : ∀ x ∈ xs, x = none) : firstSomeFrom xs i = none := by
  rw [firstSomeFrom_eq_none]
  intro x hx
  exact h x (List.drop_subset _ _ hx)

lemma all_none_of_char_none (xs : Col) (i : Nat) (hi : i < xs.length)
    (hl : lastSomeUpTo xs i = none) (hf : firstSomeFrom xs i = none) :
    ∀ x ∈ xs, x = none := by
  intro x hx
  rw [List.mem_iff_getElem] at hx
  obtain ⟨j, hj, hval⟩ := hx
  by_cases hji : j ≤ i
  · refine (lastSomeUpTo_eq_none xs i).mp hl x ?_
    rw [← hval]
    have hjt : (xs.take (i + 1))[j]? = some xs[j] := by
      rw [List.getElem?_take, if_pos (by omega), List.getElem?_eq_getElem hj]
    exact List.getElem?_mem hjt
  · refine (firstSomeFrom_eq_none xs i).mp hf x ?_
    rw [← hval]
    have hjd : (xs.drop i)[j - i]? = some xs[j] := by
      rw [List.getElem?_drop]
      rw [show i + (j - i) = j by omega]
      rw [List.getElem?_eq_getElem hj]
    exact List.getElem?_mem hjd

lemma orDefault_eq_none (a b : Option ℚ) (h : orDefault a b = none) :
    a = none ∧ b = none := by
  cases a with
  | some v => exact Option.noConfusion h
  | none => exact ⟨rfl, h⟩

lemma repairCol_all_none (xs : Col) (h : ∀ x ∈ xs, x = none) :
    repairCol xs = xs := by
  apply List.ext_getElem?
  intro i
  by_cases hi : i < xs.length
  · rw [repairCol_getElem? xs i hi, lastSomeUpTo_none_of_all_none xs i h,
      firstSomeFrom_none_of_all_none xs i h]
    rw [List.getElem?_eq_getElem hi]
    rw [h xs[i] (xs.getElem_mem hi)]
    rfl
  · have h1 : (repairCol xs).length ≤ i := by rw [repairCol_length]; omega
    rw [List.getElem?_eq_none h1, List.getElem?_eq_none (show xs.length ≤ i by omega)]

lemma repairCol_no_none (xs : Col) (h : ∀ x ∈ xs, x ≠ none) :
    repairCol xs = xs := by
  apply List.ext_getElem?
  intro i
  by_cases hi : i < xs.length
  · rw [repairCol_getElem? xs i hi]
    obtain ⟨v, hv⟩ : ∃ v, xs[i] = some v := by
      cases hxi : xs[i] with
      | none => exact absurd hxi (h xs[i] (xs.getElem_mem hi))
      | some v => exact ⟨v, rfl⟩
    rw [lastSomeUpTo_of_getElem xs i v (by rw [List.getElem?_eq_getElem hi, hv])]
    rw [List.getElem?_eq_getElem hi, hv]
    rfl
  · have h1 : (repairCol xs).length ≤ i := by rw [repairCol_length]; omega
    rw [List.getElem?_eq_none h1, List.getElem?_eq_none (show xs.length ≤ i by omega)]

lemma repairCol_entries_some (xs : Col) (hx : ∃ x ∈ xs, x ≠ none) :
    ∀ y ∈ repairCol xs, y ≠ none := by
  intro y hy
  rw [List.mem_iff_getElem] at hy
  obtain ⟨i, hi, hval⟩ := hy
  have hi2 : i < xs.length := by rwa [repairCol_length] at hi
  have hchar := repairCol_getElem? xs i hi2
  rw [List.getElem?_eq_getElem hi] at hchar
  obtain ⟨x, hxmem, hxne⟩ := hx
  subst hval
  intro hnone
  rw [hnone] at hchar
  have hod := orDefault_eq_none _ _ (Option.some.injEq _ _ ▸ hchar).symm
  have hall := all_none_of_char_none xs i hi2 hod.1 hod.2
  exact hxne (hall x hxmem)

lemma repairCol_idem (xs : Col) : repairCol (repairCol xs) = repairCol xs := by
  by_cases hall : ∀ x ∈ xs, x = none
  · rw [repairCol_all_none xs hall, repairCol_all_none xs hall]
  · push_neg at hall
    exact repairCol_no_none _ (repairCol_entries_some xs hall)

/-- C4: `repair(dirty)` is forward-fill followed by backward-fill on every
column.  First conjunct: each cell of a repaired column is its own value
when non-missing (the most recent preceding non-missing value at a
position `≤ i` is then the cell itself), otherwise the most recent
preceding non-missing value, and only when no such value exists the
nearest following one (`orDefault (lastSomeUpTo xs i) (firstSomeFrom xs i)`).
Second conjunct: `repairDF` acts columnwise by `repairCol`.  Third
conjunct: the spec's scenario, column `[NaN,NaN,3,4,NaN]` repairs to
`[3,3,3,4,4]`. -/
theorem repair_ffill_bfill :
    (∀ (xs : Col) (i : Nat), i < xs.length →
      (repairCol xs)[i]? = some (orDefault (lastSomeUpTo xs i) (firstSomeFrom xs i)))
  ∧ (∀ (df : DF) (name : String) (xs : Col),
      (name, xs) ∈ df.cols → (name, repairCol xs) ∈ (repairDF df).cols)
  ∧ repairCol [none, none, some 3, some 4, none]
      = [some 3, some 3, some 3, some 4, some 4] := by
  refine ⟨repairCol_getElem?, ?_, rfl⟩
  intro df name xs hmem
  exact List.mem_map.mpr ⟨(name, xs), hmem, rfl⟩

/-- C4 witness: the characterization evaluated at the concrete column
`[some 5, none]` at position `1`. -/
theorem repair_ffill_bfill_witness :
    (repairCol [some 5, none])[1]? =
      some (orDefault (lastSomeUpTo [some 5, none] 1) (firstSomeFrom [some 5, none] 1)) :=
  repair_ffill_bfill.1 [some 5, none] 1 (by decide)

/-- C9: repair is idempotent on every matrix, and a matrix with no
missing cell is left unchanged by repair. -/
theorem repair_idem :
    (∀ df : DF, repairDF (repairDF df) = repairDF df)
  ∧ (∀ df : DF, (∀ p ∈ df.cols, ∀ x ∈ p.2, x ≠ none) → repairDF df = df) := by
  constructor
  · intro df
    simp only [repairDF, List.map_map, DF.mk.injEq]
    refine List.map_congr_left ?_
    intro p _
    simp [Function.comp, repairCol_idem]
  · intro df h
    simp only [repairDF, DF.mk.injEq]
    have hmap : df.cols.map (fun p => ((p.1, repairCol p.2) : String × Col))
        = df.cols.map id := by
      refine List.map_congr_left ?_
      intro p hp
      rw [repairCol_no_none p.2 (h p hp)]
      rfl
    rw [hmap, List.map_id]

/-- C9 witness: repairing the already-clean one-column matrix
`[("台積電", [some 1])]` leaves it unchanged. -/
theorem repair_idem_witness :
    repairDF ⟨[("台積電", [some 1])]⟩ = ⟨[("台積電", [some 1])]⟩ :=
  repair_idem.2 ⟨[("台積電", [some 1])]⟩ (by decide)

lemma updateCol_length (cols : List (String × Col)) (j : Nat) (f : Col → Col) :
    (updateCol cols j f).length = cols.length := by
  induction cols generalizing j with
  | nil => rfl
  | cons p ps ih =>
    cases j with
    | zero => rfl
    | succ j => simp [updateCol, ih]

lemma updateCol_getElem? (cols : List (String × Col)) (j : Nat) (f : Col → Col) (k : Nat) :
    (updateCol cols j f)[k]? =
      if k = j then cols[j]?.map (fun p => (p.1, f p.2)) else cols[k]? := by
  induction cols generalizing j k with
  | nil => simp [updateCol]
  | cons p ps ih =>
    cases j with
    | zero =>
      cases k with
      | zero => simp [updateCol]
      | succ k => simp [updateCol]
    | succ j =>
      cases k with
      | zero => simp [updateCol]
      | succ k =>
        have hstep : (updateCol (p :: ps) (j + 1) f)[k + 1]? = (updateCol ps j f)[k]? := by
          simp [updateCol]
        rw [hstep, ih j k]
        by_cases hkj : k = j
        · subst hkj
          simp
        · rw [if_neg hkj, if_neg (by omega)]
          simp

lemma getLoc_updateCol (cols : List (String × Col)) (j : Nat) (f : Col → Col) (name : String) :
    getLoc (updateCol cols j f) name = getLoc cols name := by
  induction cols generalizing j with
  | nil => rfl
  | cons p ps ih =>
    cases j with
    | zero => simp [updateCol, getLoc]
    | succ j => simp [updateCol, getLoc, ih]

lemma getLoc_name (cols : List (String × Col)) (name : String) (j : Nat)
    (h : getLoc cols name = some j) : cols[j]?.map Prod.fst = some name := by
  induction cols generalizing j with
  | nil => exact Option.noConfusion h
  | cons p ps ih =>
    rw [getLoc] at h
    by_cases hp : p.1 = name
    · rw [if_pos hp] at h
      have hj : j = 0 := by
        have := Option.some.injEq (0 : Nat) j ▸ h
        omega
      subst hj
      simp [hp]
    · rw [if_neg hp] at h
      obtain ⟨j0, hj0, hplus⟩ := Option.map_eq_some'.mp h
      have hj : j = j0 + 1 := hplus.symm
      subst hj
      simpa using ih j0 hj0

lemma blankRange_length (lo hi : Nat) (xs : Col) :
    (blankRange lo hi xs).length = xs.length := by
  induction xs generalizing lo hi with
  | nil => rfl
  | cons x l ih => simp [blankRange, ih]

lemma blankRange_getElem? (lo hi : Nat) (xs : Col) (i : Nat) :
    (blankRange lo hi xs)[i]? =
      xs[i]?.map (fun x => if lo ≤ i ∧ i < hi then none else x) := by
  induction xs generalizing lo hi i with
  | nil => simp [blankRange]
  | cons x l ih =>
    cases i with
    | zero =>
      simp only [blankRange, List.getElem?_cons_zero, Option.map_some']
      by_cases h0 : lo = 0 ∧ 0 < hi
      · rw [if_pos h0, if_pos ⟨by omega, h0.2⟩]
      · rw [if_neg h0, if_neg (by omega)]
    | succ i =>
      have hstep : (blankRange lo hi (x :: l))[i + 1]? = (blankRange (lo - 1) (hi - 1) l)[i]? := by
        simp [blankRange]
      rw [hstep, ih (lo - 1) (hi - 1) i, List.getElem?_cons_succ]
      have hiff : (lo - 1 ≤ i ∧ i < hi - 1) ↔ (lo ≤ i + 1 ∧ i + 1 < hi) := by omega
      simp only [hiff]

lemma nRows_updateCol (cols : List (String × Col)) (j : Nat) (f : Col → Col)
    (hf : ∀ xs, (f xs).length = xs.length) :
    DF.nRows ⟨updateCol cols j f⟩ = DF.nRows ⟨cols⟩ := by
  cases cols with
  | nil => rfl
  | cons p ps =>
    cases j with
    | zero => simp [updateCol, DF.nRows, hf]
    | succ j => rfl

lemma corrupt_eq_of_found (df : DF) (j1 j2 j3 : Nat)
    (h1 : getLoc df.cols "台積電" = some j1)
    (h2 : getLoc df.cols "鴻海" = some j2)
    (h3 : getLoc df.cols "聯發科" = some j3)
    (hempty : df.isEmpty = false) (hrows : 20 < df.nRows) :
    corrupt df =
      ⟨updateCol (updateCol (updateCol df.cols j1 (blankRange 0 5)) j2 (blankRange 10 13))
        j3 (blankRange 20 21)⟩ := by
  have hn2 : DF.nRows ⟨updateCol (updateCol df.cols j1 (blankRange 0 5)) j2 (blankRange 10 13)⟩
      = df.nRows := by
    rw [nRows_updateCol _ _ _ (blankRange_length 10 13),
      nRows_updateCol _ _ _ (blankRange_length 0 5)]
  simp only [corrupt, hempty, Bool.false_eq_true, if_false, h1, getLoc_updateCol, h2, h3]
  rw [if_pos (by rw [hn2]; omega)]

lemma cellPos_updateBlank (cols : List (String × Col)) (j lo hi i k : Nat) :
    cellPos ⟨updateCol cols j (blankRange lo hi)⟩ i k =
      if k = j then (cellPos ⟨cols⟩ i k).map (fun x => if lo ≤ i ∧ i < hi then none else x)
      else cellPos ⟨cols⟩ i k := by
  unfold cellPos
  simp only []
  rw [updateCol_getElem?]
  by_cases hkj : k = j
  · subst hkj
    rw [if_pos rfl, if_pos rfl]
    cases hc : cols[k]? with
    | none => rfl
    | some p => simp [blankRange_getElem?]
  · rw [if_neg hkj, if_neg hkj]

lemma getLoc_lt_length (cols : List (String × Col)) (name : String) (j : Nat)
    (h : getLoc cols name = some j) : j < cols.length := by
  have hn := getLoc_name cols name j h
  by_contra hge
  rw [List.getElem?_eq_none (by omega)] at hn
  exact Option.noConfusion hn


lemma if_some_congr (A B : Prop) [Decidable A] [Decidable B] (hAB : A ↔ B) (val : Option ℚ) :
    (some (if A then none else val) : Option (Option ℚ)) = if B then some none else some val := by
  by_cases hA : A
  · rw [if_pos hA, if_pos (hAB.mp hA)]
  · rw [if_neg hA, if_neg (fun hB => hA (hAB.mpr hB))]

/-- C1 (amended): the corruption targets are selected by display label,
not by column position.  For a rectangular matrix with at least 21 rows
whose columns include the labels 台積電, 鴻海 and 聯發科 (at positions
`j1`, `j2`, `j3`), `corrupt` overwrites with missing exactly the cells at
row positions 0–4 of column 台積電, 10–12 of 鴻海 and 20 of 聯發科,
wherever those columns sit, and leaves every other cell unchanged. -/
theorem corrupt_by_label (df : DF) (hrect : df.Rect) (hrows : 21 ≤ df.nRows)
    (j1 j2 j3 : Nat)
    (h1 : getLoc df.cols "台積電" = some j1)
    (h2 : getLoc df.cols "鴻海" = some j2)
    (h3 : getLoc df.cols "聯發科" = some j3)
    (i k : Nat) (hi : i < df.nRows) (hk : k < df.cols.length) :
    cellPos (corrupt df) i k =
      if (k = j1 ∧ i < 5) ∨ (k = j2 ∧ 10 ≤ i ∧ i < 13) ∨ (k = j3 ∧ i = 20)
      then some none
      else cellPos df i k := by
  have hne : df.cols ≠ [] := by
    intro e
    rw [e] at hk
    simp at hk
  have hempty : df.isEmpty = false := by
    simp only [DF.isEmpty, Bool.or_eq_false_iff]
    constructor
    · simpa [List.isEmpty_iff] using hne
    · simpa using by omega
  have hn1 := getLoc_name _ _ _ h1
  have hn2 := getLoc_name _ _ _ h2
  have hn3 := getLoc_name _ _ _ h3
  have h12 : j1 ≠ j2 := by
    intro e
    rw [e] at hn1
    exact absurd (hn1.symm.trans hn2) (by decide)
  have h13 : j1 ≠ j3 := by
    intro e
    rw [e] at hn1
    exact absurd (hn1.symm.trans hn3) (by decide)
  have h23 : j2 ≠ j3 := by
    intro e
    rw [e] at hn2
    exact absurd (hn2.symm.trans hn3) (by decide)
  have hcorr := corrupt_eq_of_found df j1 j2 j3 h1 h2 h3 hempty (by omega)
  rw [hcorr, cellPos_updateBlank, cellPos_updateBlank, cellPos_updateBlank]
  have hpk : df.cols[k]? = some df.cols[k] := List.getElem?_eq_getElem hk
  have hilen : i < (df.cols[k]).2.length := by
    rw [hrect df.cols[k] (List.getElem?_mem hpk)]
    exact hi
  have hcell : cellPos df i k = some (df.cols[k]).2[i] := by
    unfold cellPos
    rw [hpk]
    exact List.getElem?_eq_getElem hilen
  have hmkcols : cellPos ⟨df.cols⟩ i k = cellPos df i k := rfl
  rw [hmkcols, hcell]
  by_cases hk1 : k = j1 <;> by_cases hk2 : k = j2 <;> by_cases hk3 : k = j3
  · exact absurd (hk1.symm.trans hk2) h12
  · exact absurd (hk1.symm.trans hk2) h12
  · exact absurd (hk1.symm.trans hk3) h13
  · rw [if_neg hk3, if_neg hk2, if_pos hk1]
    simp only [Option.map_some']
    refine if_some_congr _ _ ?_ _
    constructor
    · intro hA
      exact Or.inl ⟨hk1, hA.2⟩
    · rintro (⟨_, h5⟩ | ⟨he, _⟩ | ⟨he, _⟩)
      · exact ⟨by omega, h5⟩
      · exact absurd he hk2
      · exact absurd he hk3
  · exact absurd (hk2.symm.trans hk3) h23
  · rw [if_neg hk3, if_pos hk2, if_neg hk1]
    simp only [Option.map_some']
    refine if_some_congr _ _ ?_ _
    constructor
    · intro hA
      exact Or.inr (Or.inl ⟨hk2, hA⟩)
    · rintro (⟨he, _⟩ | ⟨_, hr⟩ | ⟨he, _⟩)
      · exact absurd he hk1
      · exact hr
      · exact absurd he hk3
  · rw [if_pos hk3, if_neg hk2, if_neg hk1]
    simp only [Option.map_some']
    refine if_some_congr _ _ ?_ _
    constructor
    · intro hA
      exact Or.inr (Or.inr ⟨hk3, by omega⟩)
    · rintro (⟨he, _⟩ | ⟨he, _⟩ | ⟨_, h20⟩)
      · exact absurd he hk1
      · exact absurd he hk2
      · exact ⟨by omega, by omega⟩
  · rw [if_neg hk3, if_neg hk2, if_neg hk1]
    rw [if_neg (by
      rintro (⟨he, _⟩ | ⟨he, _⟩ | ⟨he, _⟩)
      · exact absurd he hk1
      · exact absurd he hk2
      · exact absurd he hk3)]

/-- A rectangular 21-row, 3-security matrix with no missing cell whose
labels are not the three hard-coded target labels. -/
def dfPositional : DF :=
  ⟨[("A", List.replicate 21 (some 1)), ("B", List.replicate 21 (some 1)),
    ("C", List.replicate 21 (some 1))]⟩

/-- C1 counterexample: `dfPositional` has 21 dates and 3 securities, yet
`corrupt` leaves the cell at row position 0 of the first security in
column order untouched (it is non-missing after corruption), because the
code looks the target columns up by label, and no column is labelled
台積電.  The claim, which requires that cell to be missing, is false. -/
theorem corrupt_positional_cex :
    dfPositional.nRows = 21 ∧ dfPositional.cols.length = 3 ∧
    cellPos (corrupt dfPositional) 0 0 = some (some 1) := by
  refine ⟨rfl, rfl, ?_⟩
  rfl

/-- A rectangular 21-row, 3-security matrix carrying the three target
labels in the first three column positions, used to witness
`corrupt_by_label`. -/
def dfTW : DF :=
  ⟨[("台積電", List.replicate 21 (some 1)), ("鴻海", List.replicate 21 (some 1)),
    ("聯發科", List.replicate 21 (some 1))]⟩

/-- C1 witness: `corrupt_by_label` evaluated on `dfTW` at cell (0, 0),
which the corruption turns into a missing cell. -/
theorem corrupt_by_label_witness : cellPos (corrupt dfTW) 0 0 = some none := by
  have h := corrupt_by_label dfTW (by intro p hp; fin_cases hp <;> rfl) (by decide) 0 1 2 rfl rfl rfl 0 0
    (by decide) (by decide)
  rw [h, if_pos (Or.inl ⟨rfl, by omega⟩)]

/-- A 2-row, single-security matrix containing the first target label:
below both thresholds of the claim (fewer than 21 dates, fewer than 3
securities). -/
def dfShort : DF := ⟨[("台積電", [some 1, some 2])]⟩

/-- C2 counterexample: on `dfShort` (2 dates, 1 security) the corruption
step is not a no-op: the first slice assignment succeeds before the
lookup of 鴻海 raises, and the bare `except` keeps its effect, so the
dirty matrix differs from the original. -/
theorem corrupt_short_cex :
    dfShort.nRows = 2 ∧ dfShort.cols.length = 1 ∧ corrupt dfShort ≠ dfShort := by
  refine ⟨rfl, rfl, ?_⟩
  intro h
  have h0 : cellPos (corrupt dfShort) 0 0 = cellPos dfShort 0 0 := by rw [h]
  exact Option.noConfusion (Option.some.injEq _ _ ▸ h0)

/-- C2 (amended): the corruption step never raises, and it is a complete
no-op whenever the matrix is empty (the `if not df_dirty.empty` guard) or
has no column labelled 台積電 (the first `get_loc` raises before anything
is written).  On other matrices with fewer than 21 dates or fewer than 3
securities it is not a no-op: the assignments preceding the first failure
keep their effect (see `corrupt_short_cex`). -/
theorem corrupt_noop (df : DF)
    (h : df.isEmpty = true ∨ getLoc df.cols "台積電" = none) :
    corrupt df = df := by
  unfold corrupt
  rcases h with h | h
  · rw [if_pos h]
  · by_cases he : df.isEmpty
    · rw [if_pos he]
    · rw [if_neg he, h]

/-- C2 witness: `corrupt_noop` on the empty matrix. -/
theorem corrupt_noop_witness : corrupt ⟨[]⟩ = ⟨[]⟩ :=
  corrupt_noop ⟨[]⟩ (Or.inl rfl)

/-- C3 counterexample: when acquisition returns the empty matrix without
raising, the run does not take the `st.error`/`st.stop` path at all:
`load_and_process_data` returns normally (corruption skipped by its
emptiness guard, repair executed on the empty frame), the daily returns
and the annualized summary are computed (they are the payload of the
`unhandledIndexError` outcome), and the run later dies on an uncaught
`IndexError` at the row-position dereference of the chart/ranking stage —
downstream computation does happen and no `AcquisitionFailure` is
reported. -/
theorem empty_matrix_runs_downstream_cex :
    (moduleRun (some ⟨[]⟩)).isAcqFailure = false ∧
    moduleRun (some ⟨[]⟩) = RunOutcome.unhandledIndexError ⟨[]⟩ [] := by
  exact ⟨rfl, rfl⟩

/-- C3 (amended): the `AcquisitionFailure` report happens exactly when
acquisition (or the `['Adj Close']` projection) raises; a successfully
returned matrix — empty or not — never produces it, and the downstream
returns and summary are computed for every returned matrix. -/
theorem acquisition_failure_iff_raise :
    moduleRun none = RunOutcome.acquisitionFailure ∧
    ∀ df : DF, (moduleRun (some df)).isAcqFailure = false := by
  refine ⟨rfl, ?_⟩
  intro df
  unfold moduleRun
  by_cases h : (repairDF (corrupt df)).nRows = 0
  · simp only [loadAndProcess, h, if_pos]
    rfl
  · simp only [loadAndProcess, if_neg h]
    rfl

/-- C10: the corruption block mutates only the object allocated by the
second `data.copy()`.  After the block, the frame at `data`'s address and
the frame at `df_original`'s address are both still the acquired matrix,
and the corrupted frame lives only at `df_dirty`'s (fresh) address. -/
theorem corrupt_on_copy (data : DF) :
    heapRead (corruptStage data).1 (corruptStage data).2.1 = some data
  ∧ heapRead (corruptStage data).1 (corruptStage data).2.2.1 = some data
  ∧ heapRead (corruptStage data).1 (corruptStage data).2.2.2 = some (corrupt data) := by
  refine ⟨rfl, rfl, rfl⟩

lemma zipWith_pctCell_map_some (l1 l2 : List ℚ) :
    List.zipWith pctCell (l1.map some) (l2.map some)
      = List.zipWith (fun a b => some ((b - a) / a)) l1 l2 := by
  induction l1 generalizing l2 with
  | nil => rfl
  | cons a l ih =>
    cases l2 with
    | nil => rfl
    | cons b l2 => simp [pctCell, ih]

lemma filterMap_id_zipWith_some (f : ℚ → ℚ → ℚ) (l1 l2 : List ℚ) :
    List.filterMap id (List.zipWith (fun a b => some (f a b)) l1 l2)
      = List.zipWith f l1 l2 := by
  induction l1 generalizing l2 with
  | nil => rfl
  | cons a l ih =>
    cases l2 with
    | nil => rfl
    | cons b l2 => simp [List.filterMap_cons, ih]

lemma pctChange_map_some (ps : List ℚ) :
    pctChange (ps.map some) = match ps with
      | [] => []
      | _ :: _ => none :: List.zipWith (fun a b => some ((b - a) / a)) ps ps.tail := by
  cases ps with
  | nil => rfl
  | cons a l =>
    show none :: List.zipWith pctCell ((a :: l).map some) ((a :: l).map some).tail
        = none :: List.zipWith (fun a b => some ((b - a) / a)) (a :: l) l
    rw [show ((a :: l).map some).tail = l.map some from rfl]
    rw [zipWith_pctCell_map_some]

/-- C5: `returns = df_final.pct_change()` computes, for each security and
each date position `t ≥ 1`, `(price[t] - price[t-1]) / price[t-1]`; the
first date's value is undefined (`NaN`), so the defined return series is
one entry shorter than the price series.  The last conjunct is the spec's
literal scenario for prices `[100, 102, 101, 105]`. -/
theorem dailyReturns_spec (ps : List ℚ) (hp : ∀ p ∈ ps, p ≠ 0) :
    (pctChange (ps.map some)).length = ps.length
  ∧ (ps ≠ [] → (pctChange (ps.map some)).head? = some none)
  ∧ (∀ (t : Nat) (a b : ℚ), ps[t]? = some a → ps[t + 1]? = some b →
      (pctChange (ps.map some))[t + 1]? = some (some ((b - a) / a)))
  ∧ (definedVals (pctChange (ps.map some))).length = ps.length - 1
  ∧ pctChange [some 100, some 102, some 101, some 105]
      = [none, some (1 / 50), some (-1 / 102), some (4 / 101)] := by
  refine ⟨?_, ?_, ?_, ?_, ?_⟩
  · rw [pctChange_map_some]
    cases ps with
    | nil => rfl
    | cons a l => simp [List.length_zipWith]
  · intro hne
    rw [pctChange_map_some]
    cases ps with
    | nil => exact absurd rfl hne
    | cons a l => rfl
  · intro t a b hta htb
    rw [pctChange_map_some]
    cases ps with
    | nil => exact Option.noConfusion hta
    | cons p l =>
      rw [List.getElem?_cons_succ]
      have htail : (p :: l).tail[t]? = some b := by
        rw [show (p :: l).tail = (p :: l).drop 1 from rfl, List.getElem?_drop]
        rw [show 1 + t = t + 1 from by omega]
        exact htb
      rw [List.getElem?_zipWith, hta, htail]
  · rw [pctChange_map_some]
    cases ps with
    | nil => rfl
    | cons p l =>
      show (List.filterMap id
          (none :: List.zipWith (fun a b => some ((b - a) / a)) (p :: l) l)).length
        = (p :: l).length - 1
      rw [List.filterMap_cons]
      show (List.filterMap id (List.zipWith (fun a b => some ((b - a) / a)) (p :: l) l)).length
        = (p :: l).length - 1
      rw [filterMap_id_zipWith_some]
      simp [List.length_zipWith]
  · norm_num [pctChange, pctCell]

/-- C5 witness: the theorem applied to the spec's literal price series
`[100, 102, 101, 105]` (all prices nonzero), extracting the defined-count
conjunct. -/
theorem dailyReturns_spec_witness :
    (definedVals (pctChange (([100, 102, 101, 105] : List ℚ).map some))).length
      = ([100, 102, 101, 105] : List ℚ).length - 1 :=
  (dailyReturns_spec [100, 102, 101, 105] (by norm_num)).2.2.2.1

lemma filterMap_id_map_some (l : List ℚ) : List.filterMap id (l.map some) = l := by
  induction l with
  | nil => rfl
  | cons a l ih => simp [List.filterMap_cons, ih]

/-- C8: `movingAverage(clean, security, 20) = df_final[sec].rolling(20).mean()`
emits no value (`NaN`) at the first 19 positions, and at every position
`i ≥ 19` of a fully defined price series it emits the trailing arithmetic
mean of the 20 prices at positions `i-19 … i`; in particular position 19
is the mean of positions 0–19. -/
theorem movingAverage_spec (ps : List ℚ) (i : Nat) (hi : i < ps.length) :
    (i < 19 → (ma20 (ps.map some))[i]? = some none)
  ∧ (19 ≤ i → (ma20 (ps.map some))[i]? =
      some (some (((ps.drop (i + 1 - 20)).take 20).sum / 20)))
  ∧ (i = 19 → (ma20 (ps.map some))[i]? = some (some ((ps.take 20).sum / 20))) := by
  have hget : (ma20 (ps.map some))[i]? =
      some (if i + 1 < 20 then none
        else
          let ws := ((ps.map some).drop (i + 1 - 20)).take 20
          if ws.all (fun x => x.isSome) then some ((ws.filterMap id).sum / (20 : ℚ))
          else none) := by
    rw [ma20, rollingMean]
    rw [List.getElem?_map, List.getElem?_range (by simpa using hi)]
    rfl
  have hws : ((ps.map some).drop (i + 1 - 20)).take 20
      = ((ps.drop (i + 1 - 20)).take 20).map some := by
    rw [List.map_take, List.map_drop]
  refine ⟨?_, ?_, ?_⟩
  · intro h19
    rw [hget, if_pos (by omega)]
  · intro h19
    rw [hget, if_neg (by omega)]
    simp only [hws]
    have hcond : ((((ps.drop (i + 1 - 20)).take 20).map some).all
        (fun x => x.isSome)) = true := by
      rw [List.all_eq_true]
      intro x hx
      obtain ⟨a, hmem, rfl⟩ := List.mem_map.mp hx
      rfl
    rw [if_pos hcond, filterMap_id_map_some]
  · intro h19
    subst h19
    rw [hget, if_neg (by omega)]
    simp only [hws]
    have hcond : ((((ps.drop (19 + 1 - 20)).take 20).map some).all
        (fun x => x.isSome)) = true := by
      rw [List.all_eq_true]
      intro x hx
      obtain ⟨a, hmem, rfl⟩ := List.mem_map.mp hx
      rfl
    rw [if_pos hcond, filterMap_id_map_some]
    simp

/-- C8 witness: the theorem applied at position 19 of a 20-price series
of ones, extracting the boundary conjunct. -/
theorem movingAverage_spec_witness :
    (ma20 ((List.replicate 20 (1 : ℚ)).map some))[19]? =
      some (some (((List.replicate 20 (1 : ℚ)).take 20).sum / 20)) :=
  (movingAverage_spec (List.replicate 20 (1 : ℚ)) 19 (by decide)).2.2 rfl

/-- C6: the summary computed from a column of daily returns (lines
126–129).  First conjunct: the annualized mean return is the arithmetic
mean of the observed (non-missing) daily returns times 252.  Second
conjunct: the variance underlying the reported volatility is the
observed-sample estimator, squared deviations summed and divided by
`n - 1`.  Third and fourth conjuncts: that variance is nonnegative, and
the annualized volatility the code computes — sample standard deviation
times `sqrt 252` — is characterized as the nonnegative real whose square
is `252` times the sample variance. -/
theorem annualizedSummary_spec (xs : Col) (h : 2 ≤ (definedVals xs).length) :
    annRet xs = some (((definedVals xs).sum / ((definedVals xs).length : ℚ)) * 252)
  ∧ colVar xs = some ((((definedVals xs).map fun x =>
        (x - (definedVals xs).sum / ((definedVals xs).length : ℚ)) ^ 2).sum)
      / (((definedVals xs).length : ℚ) - 1))
  ∧ (0 : ℚ) ≤ (colVar xs).getD 0
  ∧ ∀ vol : ℝ,
      vol = Real.sqrt (((colVar xs).getD 0 : ℚ) : ℝ) * Real.sqrt 252 →
      0 ≤ vol ∧ vol ^ 2 = (((colVar xs).getD 0 : ℚ) : ℝ) * 252 := by
  have hvar : colVar xs = some ((((definedVals xs).map fun x =>
      (x - (definedVals xs).sum / ((definedVals xs).length : ℚ)) ^ 2).sum)
      / (((definedVals xs).length : ℚ) - 1)) := by
    rw [colVar, if_neg (by omega)]
  have hnonneg : (0 : ℚ) ≤ (colVar xs).getD 0 := by
    rw [hvar]
    refine div_nonneg ?_ ?_
    · refine List.sum_nonneg ?_
      intro x hx
      obtain ⟨y, _, rfl⟩ := List.mem_map.mp hx
      exact sq_nonneg _
    · have hc : (2 : ℚ) ≤ ((definedVals xs).length : ℚ) := by exact_mod_cast h
      linarith
  refine ⟨?_, hvar, hnonneg, ?_⟩
  · rw [annRet, colMean, if_neg (by omega)]
    rfl
  · intro vol hvol
    subst hvol
    have ha : (0 : ℝ) ≤ (((colVar xs).getD 0 : ℚ) : ℝ) := by exact_mod_cast hnonneg
    constructor
    · exact mul_nonneg (Real.sqrt_nonneg _) (Real.sqrt_nonneg _)
    · rw [mul_pow, Real.sq_sqrt ha, Real.sq_sqrt (by norm_num)]

/-- C6 witness: the summary characterization on the concrete returns
column `[none, some 1, some 2]` (two observed returns), extracting the
annualized-mean conjunct. -/
theorem annualizedSummary_spec_witness :
    annRet [none, some 1, some 2]
      = some (((definedVals [none, some 1, some 2]).sum
          / ((definedVals [none, some 1, some 2]).length : ℚ)) * 252) :=
  (annualizedSummary_spec [none, some 1, some 2] (by decide)).1

instance rankLe_total : IsTotal (String × Option ℚ) rankLe where
  total := by
    intro a b
    rcases a with ⟨n, _ | x⟩ <;> rcases b with ⟨m, _ | y⟩ <;>
      simp [rankLe, rankLeB]
    exact le_total x y

instance rankLe_trans : IsTrans (String × Option ℚ) rankLe where
  trans := by
    intro a b u hab hbu
    rcases a with ⟨n, _ | x⟩ <;> rcases b with ⟨m, _ | y⟩ <;> rcases u with ⟨o, _ | z⟩ <;>
      simp [rankLe, rankLeB] at hab hbu ⊢
    exact le_trans hab hbu

lemma rankLe_some_some (a b : String × Option ℚ) (v w : ℚ)
    (ha : a.2 = some v) (hb : b.2 = some w) : rankLe a b ↔ v ≤ w := by
  rcases a with ⟨n, a2⟩
  rcases b with ⟨m, b2⟩
  simp only at ha hb
  subst ha
  subst hb
  simp [rankLe, rankLeB]

lemma rankGe_some_some (a b : String × Option ℚ) (v w : ℚ)
    (ha : a.2 = some v) (hb : b.2 = some w) : rankGe a b ↔ w ≤ v := by
  rcases a with ⟨n, a2⟩
  rcases b with ⟨m, b2⟩
  simp only at ha hb
  subst ha
  subst hb
  simp [rankGe, rankGeB]

lemma rankGe_right_none (a b : String × Option ℚ) (hb : b.2 = none) :
    rankGe a b := by
  rcases a with ⟨n, _ | x⟩ <;> rcases b with ⟨m, b2⟩ <;> simp only at hb <;>
    subst hb <;> rfl

lemma filter_orderedInsert_pos (v : ℚ) (x : String × Option ℚ) (hx : x.2 = some v)
    (S : List (String × Option ℚ)) :
    (List.orderedInsert rankLe x S).filter (fun q => decide (q.2 = some v))
      = x :: S.filter (fun q => decide (q.2 = some v)) := by
  induction S with
  | nil => simp [List.orderedInsert, hx]
  | cons y S ih =>
    rw [List.orderedInsert]
    by_cases hr : rankLe x y
    · rw [if_pos hr, List.filter_cons_of_pos (by simp [hx])]
    · rw [if_neg hr]
      have hyv : ¬ (y.2 = some v) := by
        intro he
        exact hr ((rankLe_some_some x y v v hx he).mpr le_rfl)
      rw [List.filter_cons_of_neg (by simp [hyv]), ih,
        List.filter_cons_of_neg (by simp [hyv])]

lemma filter_orderedInsert_neg (v : ℚ) (x : String × Option ℚ) (hx : ¬ x.2 = some v)
    (S : List (String × Option ℚ)) :
    (List.orderedInsert rankLe x S).filter (fun q => decide (q.2 = some v))
      = S.filter (fun q => decide (q.2 = some v)) := by
  induction S with
  | nil => simp [List.orderedInsert, hx]
  | cons y S ih =>
    rw [List.orderedInsert]
    by_cases hr : rankLe x y
    · rw [if_pos hr, List.filter_cons_of_neg (by simp [hx])]
    · rw [if_neg hr, List.filter_cons, List.filter_cons, ih]

/-- Stability of the modelled argsort for one value class: the securities
whose pct equals `v` appear in the sorted list exactly as they appear in
the input. -/
lemma filter_insertionSort (v : ℚ) (L : List (String × Option ℚ)) :
    (List.insertionSort rankLe L).filter (fun q => decide (q.2 = some v))
      = L.filter (fun q => decide (q.2 = some v)) := by
  induction L with
  | nil => rfl
  | cons x L ih =>
    show (List.orderedInsert rankLe x (List.insertionSort rankLe L)).filter _ = _
    by_cases hx : x.2 = some v
    · rw [filter_orderedInsert_pos v x hx _, ih,
        List.filter_cons_of_pos (by simp [hx])]
    · rw [filter_orderedInsert_neg v x hx _, ih,
        List.filter_cons_of_neg (by simp [hx])]

lemma mem_rank_sorted_isSome (df : DF) (q : String × Option ℚ)
    (h : q ∈ (List.insertionSort rankLe
      (((totalReturnDF df).filter (fun p => p.2.isSome)).reverse)).reverse) :
    q.2.isSome = true := by
  rw [List.mem_reverse] at h
  have h1 := (List.perm_insertionSort rankLe _).mem_iff.mp h
  rw [List.mem_reverse] at h1
  exact (List.mem_filter.mp h1).2

/-- C7: `totalReturnRank`.  First conjunct: the scalar assigned to a
security column with defined first and last prices is
`(last / first - 1) * 100`.  Second: every security's pct appears in the
assignment, in column order.  Third: the ranking is a permutation of that
assignment.  Fourth: the ranking is sorted descending — any entry
appearing earlier ranks at least as high as any later one (pct ≥, `NaN`
lowest).  Fifth (stability): for every value `v`, the equal-pct
securities with pct `v` appear in the ranking in exactly their original
column order. -/
theorem totalReturnRank_spec :
    (∀ (xs : Col) (f l : ℚ), xs.head? = some (some f) → xs.getLast? = some (some l) →
        pctTotal xs = some ((l / f - 1) * 100))
  ∧ (∀ (df : DF) (name : String) (xs : Col), (name, xs) ∈ df.cols →
        (name, pctTotal xs) ∈ totalReturnDF df)
  ∧ (∀ df : DF, (totalReturnRank df).Perm (totalReturnDF df))
  ∧ (∀ df : DF, List.Pairwise rankGe (totalReturnRank df))
  ∧ (∀ (df : DF) (v : ℚ),
        (totalReturnRank df).filter (fun q => decide (q.2 = some v))
          = (totalReturnDF df).filter (fun q => decide (q.2 = some v))) := by
  refine ⟨?_, ?_, ?_, ?_, ?_⟩
  · intro xs f l hf hl
    rw [pctTotal, hf, hl]
  · intro df name xs hmem
    exact List.mem_map.mpr ⟨(name, xs), hmem, rfl⟩
  · intro df
    rw [totalReturnRank]
    have p1 : (List.insertionSort rankLe
          (((totalReturnDF df).filter (fun q => q.2.isSome)).reverse)).reverse.Perm
        ((totalReturnDF df).filter (fun q => q.2.isSome)) :=
      ((List.reverse_perm _).trans (List.perm_insertionSort rankLe _)).trans
        (List.reverse_perm _)
    exact (p1.append (List.Perm.refl _)).trans (List.filter_append_perm _ _)
  · intro df
    rw [totalReturnRank]
    rw [List.pairwise_append]
    refine ⟨?_, ?_, ?_⟩
    · have hs := List.sorted_insertionSort rankLe
        (((totalReturnDF df).filter (fun q => q.2.isSome)).reverse)
      have hrev : List.Pairwise (fun a b => rankLe b a)
          ((List.insertionSort rankLe
            (((totalReturnDF df).filter (fun q => q.2.isSome)).reverse)).reverse) :=
        List.pairwise_reverse.mpr hs
      refine hrev.imp_of_mem ?_
      intro a b hma hmb hle
      obtain ⟨x, hx⟩ := Option.isSome_iff_exists.mp (mem_rank_sorted_isSome df a hma)
      obtain ⟨y, hy⟩ := Option.isSome_iff_exists.mp (mem_rank_sorted_isSome df b hmb)
      exact (rankGe_some_some a b x y hx hy).mpr
        ((rankLe_some_some b a y x hy hx).mp hle)
    · refine List.pairwise_of_forall_mem_list ?_
      intro a ha b hb
      have hbn : b.2 = none :=
        Option.not_isSome_iff_eq_none.mp (by simpa using (List.mem_filter.mp hb).2)
      exact rankGe_right_none a b hbn
    · intro a ha b hb
      have hbn : b.2 = none :=
        Option.not_isSome_iff_eq_none.mp (by simpa using (List.mem_filter.mp hb).2)
      exact rankGe_right_none a b hbn
  · intro df v
    rw [totalReturnRank, List.filter_append]
    have hnans : ((totalReturnDF df).filter (fun q => !q.2.isSome)).filter
        (fun q => decide (q.2 = some v)) = [] := by
      rw [List.filter_eq_nil_iff]
      intro q hq
      have hqn : q.2 = none :=
        Option.not_isSome_iff_eq_none.mp (by simpa using (List.mem_filter.mp hq).2)
      simp [hqn]
    rw [hnans, List.append_nil, List.filter_reverse, filter_insertionSort,
      List.filter_reverse, List.reverse_reverse, List.filter_filter]
    refine List.filter_congr ?_
    intro q _
    cases hq : q.2 with
    | none => simp [hq]
    | some w => simp [hq]

/-- C7 witness: the pct-formula conjunct evaluated on the concrete
column `[some 1, some 2]`. -/
theorem totalReturnRank_spec_witness :
    pctTotal [some 1, some 2] = some (((2 : ℚ) / 1 - 1) * 100) :=
  totalReturnRank_spec.1 [some 1, some 2] 1 2 rfl rfl

/-- Two securities with identical price columns, hence identical total
returns, "A" before "B" in column order. -/
def dfTie : DF := ⟨[("A", [some 1, some 2]), ("B", [some 1, some 2])]⟩

/-- Sanity check of the sort model on a tie: with both securities at pct
100, the descending ranking keeps the original column order [A, B] (the
pre- and post-reversals of `nargsort` cancel on equal values). -/
lemma totalReturnRank_dfTie : (totalReturnRank dfTie).map Prod.fst = ["A", "B"] := by
  have hdf : totalReturnDF dfTie = [("A", some 100), ("B", some 100)] := by
    show [("A", pctTotal [some 1, some 2]), ("B", pctTotal [some 1, some 2])]
        = [("A", some 100), ("B", some 100)]
    have hp : pctTotal [some 1, some 2] = some 100 := by
      show some (((2 : ℚ) / 1 - 1) * 100) = some 100
      norm_num
    rw [hp]
  rw [totalReturnRank, hdf]
  have hins : List.insertionSort rankLe
        ([(("A" : String), some (100 : ℚ)), ("B", some 100)].filter
          (fun q => q.2.isSome)).reverse
      = [("B", some 100), ("A", some 100)] := by
    show List.orderedInsert rankLe ("B", some 100)
        (List.orderedInsert rankLe ("A", some 100) []) = _
    show List.orderedInsert rankLe ("B", some 100) [("A", some 100)] = _
    rw [List.orderedInsert, if_pos (by simp [rankLe, rankLeB])]
  rw [hins]
  rfl
